import Mathlib

/-!
Verification development for the ALLDJ Rekordbox → USB export engine.

The Python sources embedded here are
`copy_rekordbox_playlists_to_usb.py` and `export_rekordbox_playlists_to_usb.py`
(with `export_playlists_to_usb.py` for shared helpers).  Strings are modelled
as lists of characters (Python `str` is a sequence of code points); file
systems as association lists from path strings to content strings, with
`st_size` modelled as the length of the content.  Python standard-library
calls (`urllib.parse.unquote`, `urlparse`, `os.path.relpath`, JSON parsing)
are modelled as total Lean functions, documented at each definition.
-/

namespace Alldj

/-- Python strings, modelled as their sequence of code points. -/
abbrev Str := List Char

/-- Models Python `str.strip()` (drop leading and trailing whitespace). -/
def pyStrip (s : Str) : Str :=
  ((s.dropWhile Char.isWhitespace).reverse.dropWhile Char.isWhitespace).reverse

/-- Models Python `s.startswith(p)`. -/
def startsWithS (s p : Str) : Bool := p.isPrefixOf s

/-- Models Python `s.endswith(p)`. -/
def endsWithS (s p : Str) : Bool := p.isSuffixOf s

/-- Models Python `p in s` (substring containment). -/
def containsSub : Str → Str → Bool
  | [], p => p.isEmpty
  | c :: t, p => p.isPrefixOf (c :: t) || containsSub t p

/-- Models `s.split(sep)[0]`: the part of `s` before the first occurrence of
`sep` (the whole of `s` when `sep` does not occur). -/
def splitHead : Str → Str → Str
  | [], _ => []
  | c :: t, sep => if sep.isPrefixOf (c :: t) then [] else c :: splitHead t sep

/-- Models Python `s.replace(sep, rep)` for a nonempty `sep`: every
non-overlapping occurrence is replaced, scanning left to right. -/
def replaceAllSub (s sep rep : Str) : Str :=
  match s with
  | [] => []
  | c :: t =>
    if h : sep ≠ [] ∧ sep.isPrefixOf (c :: t) then
      rep ++ replaceAllSub ((c :: t).drop sep.length) sep rep
    else c :: replaceAllSub t sep rep
termination_by s.length
decreasing_by
  · simp only [List.length_drop]
    cases sep with
    | nil => exact absurd rfl h.1
    | cons x xs => simp only [List.length_cons]; omega
  · simp only [List.length_cons]; omega

/-- Models Python `s.rstrip("/")`: drop every trailing slash. -/
def rstripSlashes (s : Str) : Str :=
  (s.reverse.dropWhile (· == '/')).reverse

/-- Hexadecimal digit value, as used by percent-decoding. -/
def hexVal (c : Char) : Option Nat :=
  if '0' ≤ c ∧ c ≤ '9' then some (c.toNat - '0'.toNat)
  else if 'a' ≤ c ∧ c ≤ 'f' then some (c.toNat - 'a'.toNat + 10)
  else if 'A' ≤ c ∧ c ≤ 'F' then some (c.toNat - 'A'.toNat + 10)
  else none

/-- Models `urllib.parse.unquote` for single-byte percent escapes: every
`%XX` hex pair becomes the character with that code, everything else is kept
(multi-byte UTF-8 escapes decode to several code points in Python; the
escapes exercised by the claims are single-byte, and no claim depends on the
decoded text of a multi-byte escape). -/
def unquote : Str → Str
  | [] => []
  | '%' :: a :: b :: t =>
    match hexVal a, hexVal b with
    | some ha, some hb => Char.ofNat (16 * ha + hb) :: unquote t
    | _, _ => '%' :: unquote (a :: b :: t)
  | c :: rest => c :: unquote rest

/-- Models `urlparse(folder).path` for a `file://` URL whose remainder (after
the scheme marker) is `rest` and which carries no query or fragment: the
netloc is everything before the first `/`, the path is the rest. -/
def urlparsePath (rest : Str) : Str := rest.dropWhile (· != '/')

/-- Models the `Invalid IPv6 URL` validation of `urllib`'s `urlsplit` on
the netloc (the part between the scheme marker and the first `/`): CPython
raises `ValueError` when exactly one of `[` and `]` occurs there (the
further bracketed-host validation of newer CPython is not modelled).  This
is the raising standard-library call reachable from both resolvers;
`unquote` never raises. -/
def urlparseRaises (netloc : Str) : Bool :=
  netloc.contains '[' != netloc.contains ']'

/-- Embeds `normalize_rekordbox_path` from `copy_rekordbox_playlists_to_usb.py`
(lines 98-161).  `fsExist` lists the paths that exist on the file system
(for the `path.exists()` probes); `Path.resolve()` on an existing path is
modelled as the identity (the claims use absolute, symlink-free paths).
The whole body sits in `try: ... except Exception: return None`, so the
`urlparse` `ValueError` (see `urlparseRaises`) becomes a `none` result;
`Path` construction and probing are modelled as total. -/
def normalize_rekordbox_path (fsExist : List Str) (folder0 filename0 : Str) :
    Option Str :=
  let folder := pyStrip folder0
  let filename := pyStrip filename0
  if filename = [] then none
  else if startsWithS folder ("file://".data) = true ∧
      urlparseRaises ((folder.drop 7).takeWhile (· != '/')) = true then
    none
  else
    let filename := unquote filename
    let folder_path :=
      if startsWithS folder ("file://".data) then
        let rest := folder.drop 7
        let p := urlparsePath rest
        unquote (if p = [] then rest else p)
      else if folder = [] then [] else unquote folder
    let folder_path :=
      if folder_path ≠ [] ∧ ¬ (endsWithS folder_path ['/'] = true) then
        folder_path ++ ['/']
      else folder_path
    let full_path :=
      if folder_path ≠ [] then
        if endsWithS folder_path ('/' :: filename) then rstripSlashes folder_path
        else if endsWithS folder_path (filename ++ '/' :: filename) then
          rstripSlashes (replaceAllSub folder_path ('/' :: filename) [])
        else if containsSub folder_path ('/' :: filename ++ ['/']) then
          splitHead folder_path ('/' :: filename ++ ['/']) ++ '/' :: filename
        else folder_path ++ filename
      else filename
    let full_path :=
      if ¬ fsExist.contains full_path ∧ full_path.contains '\\' then
        full_path.map (fun c => if c = '\\' then '/' else c)
      else full_path
    some full_path

/-- Embeds `RekordboxUSBExporter._normalize_rb_path` from
`export_rekordbox_playlists_to_usb.py` (lines 156-186).  The final
`Path(full).resolve()` is wrapped in the function's only `try/except` and
is modelled as the identity on the constructed string (the claims use
absolute, dot-free paths); the `urlparse` call is *outside* that `try`, so
its `ValueError` (see `urlparseRaises`) propagates uncaught — modelled as
`Except.error`. -/
def _normalize_rb_path (folder0 name0 : Str) : Except Str Str :=
  let folder := pyStrip folder0
  let name := pyStrip name0
  let name := unquote name
  if startsWithS folder ("file://".data) = true ∧
      urlparseRaises ((folder.drop 7).takeWhile (· != '/')) = true then
    Except.error "Invalid IPv6 URL".data
  else
    let folder_path :=
      if startsWithS folder ("file://".data) then
        let rest := folder.drop 7
        let p := urlparsePath rest
        unquote (if p = [] then rest else p)
      else unquote folder
    let folder_path :=
      if folder_path ≠ [] ∧ ¬ (endsWithS folder_path ['/'] = true) then
        folder_path ++ ['/']
      else folder_path
    Except.ok (if endsWithS folder_path ('/' :: name) then folder_path
      else folder_path ++ name)

/-! File-system and state model.  A file system is an association list from
path strings to content strings; `st_size` is the length of the content.
Newer entries are prepended and shadow older ones. -/

/-- Association-list lookup (first entry wins). -/
def assocFind {β : Type} (m : List (Str × β)) (k : Str) : Option β :=
  match m with
  | [] => none
  | e :: t => if e.1 = k then some e.2 else assocFind t k

/-- Association-list update: the new binding shadows any previous one. -/
def assocSet {β : Type} (m : List (Str × β)) (k : Str) (v : β) : List (Str × β) :=
  (k, v) :: m

/-- Association-list deletion. -/
def assocDel {β : Type} (m : List (Str × β)) (k : Str) : List (Str × β) :=
  match m with
  | [] => []
  | e :: t => if e.1 = k then assocDel t k else e :: assocDel t k

/-- A file system: existing paths mapped to their contents. -/
abbrev FST := List (Str × Str)

/-- Embeds `atomic_copy_file` from `copy_rekordbox_playlists_to_usb.py`
(lines 79-96), at the granularity of one whole copy (the temp-then-rename
internals are modelled step by step in `tempThenRename` below): returns
whether a copy was performed, and the resulting file system.  A missing
source or an equal-size existing destination performs no write
(`dest.parent.mkdir` only creates directories and is not modelled). -/
def atomic_copy_file (fs : FST) (src dest : Str) : Bool × FST :=
  match assocFind fs src with
  | none => (false, fs)
  | some sc =>
    match assocFind fs dest with
    | some dc =>
      if sc.length = dc.length then (false, fs)
      else (true, assocSet fs dest sc)
    | none => (true, assocSet fs dest sc)

/-- Embeds `file_same_size` from `export_rekordbox_playlists_to_usb.py`
(lines 50-54): size equality, `False` when either stat raises
`FileNotFoundError`. -/
def file_same_size (fs : FST) (src dest : Str) : Bool :=
  match assocFind fs src, assocFind fs dest with
  | some a, some b => a.length == b.length
  | _, _ => false

/-- Embeds the net effect of `copy_file_atomic` from
`export_rekordbox_playlists_to_usb.py` (lines 40-47): the destination is
overwritten with the source content (no size guard inside — the guard is at
the call site). -/
def copy_file_atomic_fn (fs : FST) (src dest : Str) : FST :=
  match assocFind fs src with
  | some sc => assocSet fs dest sc
  | none => fs

/-- Embeds the per-track copy guard of `RekordboxUSBExporter.export`
(`export_rekordbox_playlists_to_usb.py` lines 283-284):
`if not dest_abs.exists() or not file_same_size(src, dest): copy_file_atomic`.
Returns the file system and the number of copies performed (0 or 1). -/
def export_copy_step (fs : FST) (src dest : Str) : FST × Nat :=
  if (assocFind fs dest).isSome && file_same_size fs src dest then (fs, 0)
  else (copy_file_atomic_fn fs src dest, 1)

/-- One persisted per-playlist entry of the export state
(`export_rekordbox_playlists_to_usb.py` lines 292-297 and 306-312). -/
structure TransferRecord where
  completed : Bool
  tracks_total : Nat
  tracks_exported : Nat
  m3u8_path : Option Str
  name : Str
deriving DecidableEq

/-- The persisted `"playlists"` map of the state file. -/
abbrev State := List (Str × TransferRecord)

/-- Embeds `RekordboxUSBExporter.load_state`
(`export_rekordbox_playlists_to_usb.py` lines 101-106).  `parseJson` models
`json.loads`, returning `none` where Python raises (the `except: pass`
branch); the file system is returned unchanged to express that loading only
reads.  `st0` is the initial default state built in `__init__`. -/
def load_state (resume : Bool) (parseJson : Str → Option State) (fs : FST)
    (state_path : Str) (st0 : State) : State × FST :=
  if resume then
    match assocFind fs state_path with
    | some txt =>
      match parseJson txt with
      | some st => (st, fs)
      | none => (st0, fs)
    | none => (st0, fs)
  else (st0, fs)

/-! Step-level model of the atomic write pattern.  Both scripts write data
through `tempfile.NamedTemporaryFile(dir=dest.parent)` followed by
`tmp_path.replace(dest)`; the model makes each observable file-system
transition one step, so interruption after any prefix of steps is a
reachable state. -/

/-- One observable file-system transition of the write pattern:
appending a chunk to a (temp) file, or the atomic `Path.replace` rename. -/
inductive WStep where
  | writeTmp : Str → Str → WStep
  | rename : Str → Str → WStep

/-- Apply one step to the file system.  `writeTmp t c` creates `t` if absent
and appends `c`; `rename t d` atomically moves `t` onto `d` (overwriting). -/
def applyStep (fs : FST) : WStep → FST
  | .writeTmp t c => assocSet fs t (((assocFind fs t).getD []) ++ c)
  | .rename t d =>
    match assocFind fs t with
    | some c => assocSet (assocDel fs t) d c
    | none => fs

/-- Run a list of steps in order. -/
def runSteps (fs : FST) (steps : List WStep) : FST :=
  steps.foldl applyStep fs

/-- The directory part of a path (everything before the last `/`),
modelling `Path.parent` on slash-separated path strings. -/
def dirOf (p : Str) : Str :=
  ((p.reverse.dropWhile (· != '/')).drop 1).reverse

/-- The temp file created by `NamedTemporaryFile(dir=str(dest.parent))`:
a fresh name inside the destination's own directory. -/
def tmpPathFor (dest tmpName : Str) : Str :=
  dirOf dest ++ '/' :: tmpName

/-- Concatenation of the streamed chunks. -/
def joinAll (cs : List Str) : Str := cs.foldr (fun a b => a ++ b) []

/-- The step trace shared by both atomic writers: create the temp file in
the destination's directory, stream the content into it in chunks, then
rename it onto the destination. -/
def tempThenRename (dest tmpName : Str) (chunks : List Str) : List WStep :=
  WStep.writeTmp (tmpPathFor dest tmpName) [] ::
    chunks.map (WStep.writeTmp (tmpPathFor dest tmpName)) ++
    [WStep.rename (tmpPathFor dest tmpName) dest]

/-- Embeds `atomic_write_text` (`copy_rekordbox_playlists_to_usb.py` lines
71-77 and `export_rekordbox_playlists_to_usb.py` lines 32-37), used for
every manifest and every state-file rewrite: one `tmp.write(content)` then
the rename. -/
def atomic_write_text_steps (dest tmpName : Str) (content : Str) : List WStep :=
  tempThenRename dest tmpName [content]

/-- Embeds `copy_file_atomic` / the write phase of `atomic_copy_file`
(`export_rekordbox_playlists_to_usb.py` lines 40-47,
`copy_rekordbox_playlists_to_usb.py` lines 90-96), used for every
destination audio file write: `shutil.copyfileobj` streams the source into
the temp file chunk by chunk, then the rename. -/
def copy_file_atomic_steps (dest tmpName : Str) (chunks : List Str) : List WStep :=
  tempThenRename dest tmpName chunks

/-! The copy script's per-track transfer loop and the orchestrator loops. -/

/-- The `CopyStats` dataclass of `copy_rekordbox_playlists_to_usb.py`
(lines 57-66), restricted to the counters touched by the track loop. -/
structure CopyStats where
  tracks_total : Nat
  tracks_copied : Nat
  tracks_skipped : Nat
  tracks_failed : Nat
  bytes_copied : Nat
deriving DecidableEq

/-- The `TrackInfo` dataclass of `copy_rekordbox_playlists_to_usb.py`
(lines 47-54): `src_exists` is the precomputed `exists` field. -/
structure CTrack where
  title : Str
  original_path : Str
  relative_path : Str
  file_size : Nat
  src_exists : Bool
deriving DecidableEq

/-- Accumulated state of the track loop inside
`RekordboxPlaylistCopier.copy_playlist`: the file system, the shared stats,
the `copied_tracks` list handed to the manifest writer, and the local
`tracks_copied_count` / `tracks_failed_count` counters. -/
structure CopyLoopRes where
  fs : FST
  stats : CopyStats
  copied_tracks : List (CTrack × Str)
  cc : Nat
  fc : Nat
deriving DecidableEq

/-- Embeds the track loop of `RekordboxPlaylistCopier.copy_playlist`
(`copy_rekordbox_playlists_to_usb.py` lines 472-502).  `ioErr t` models
`atomic_copy_file` raising an I/O exception for that track (the `except`
branch); the loop then counts a failure and continues.  A track whose
source does not exist is logged, counted as failed, and skipped. -/
def copy_playlist_tracks (music_root : Str) (ioErr : CTrack → Bool) :
    List CTrack → CopyLoopRes → CopyLoopRes
  | [], acc => acc
  | t :: rest, acc =>
    let acc0 : CopyLoopRes :=
      { acc with stats :=
          { acc.stats with tracks_total := acc.stats.tracks_total + 1 } }
    if t.src_exists = false then
      copy_playlist_tracks music_root ioErr rest
        { acc0 with
          stats := { acc0.stats with
            tracks_failed := acc0.stats.tracks_failed + 1 },
          fc := acc0.fc + 1 }
    else
      let dest := music_root ++ '/' :: t.relative_path
      if ioErr t then
        copy_playlist_tracks music_root ioErr rest
          { acc0 with
            stats := { acc0.stats with
              tracks_failed := acc0.stats.tracks_failed + 1 },
            fc := acc0.fc + 1 }
      else
        let r := atomic_copy_file acc0.fs t.original_path dest
        let acc1 : CopyLoopRes :=
          if r.1 then
            { acc0 with
              fs := r.2,
              stats := { acc0.stats with
                tracks_copied := acc0.stats.tracks_copied + 1,
                bytes_copied := acc0.stats.bytes_copied + t.file_size },
              cc := acc0.cc + 1 }
          else
            { acc0 with
              fs := r.2,
              stats := { acc0.stats with
                tracks_skipped := acc0.stats.tracks_skipped + 1 } }
        copy_playlist_tracks music_root ioErr rest
          { acc1 with copied_tracks := acc1.copied_tracks ++ [(t, dest)] }

/-- Embeds the per-playlist loop of `RekordboxPlaylistCopier.run`
(`copy_rekordbox_playlists_to_usb.py` lines 592-605).  `process pid st`
models `copy_playlist` on the shared state: `ok (success, st2)` for a
normal return, `error e` for a raised exception (which leaves the in-memory
state unchanged — `copy_playlist` assigns its state entry only on the
success path).  The `try/except` counts a failure and continues. -/
def runLoop (process : Str → State → Except Str (Bool × State)) :
    List Str → State → Nat → State × Nat
  | [], st, failed => (st, failed)
  | pid :: rest, st, failed =>
    match process pid st with
    | .ok (true, st2) => runLoop process rest st2 failed
    | .ok (false, st2) => runLoop process rest st2 (failed + 1)
    | .error _ => runLoop process rest st (failed + 1)

/-- Embeds the per-playlist loop of `RekordboxUSBExporter.export`
(`export_rekordbox_playlists_to_usb.py` lines 247-313) at the exception
level: the loop body has no `try/except`, so the first raised exception
propagates out of `export` and the remaining playlists are never
processed. -/
def export_loop_uncaught (process : Str → State → Except Str State) :
    List Str → State → Except Str State
  | [], st => .ok st
  | pid :: rest, st =>
    match process pid st with
    | .ok st2 => export_loop_uncaught process rest st2
    | .error e => .error e

/-! Collection-hierarchy walks.  Both scripts rebuild a node's full path by
walking parent pointers toward the root, with a visited set guarding
against cycles in corrupt data.  The Lean embeddings recurse exactly as the
`while` loops do; the well-founded measure is the number of map keys not
yet visited, which is the loops' actual termination argument. -/

/-- A collection node: the `PlaylistNode` dataclass of
`export_rekordbox_playlists_to_usb.py` (lines 78-82) / the projection of a
`djmdPlaylist` row used by both scripts (`ID`, `Name`, `ParentID`). -/
structure PNode where
  id : Str
  name : Str
  parent_id : Option Str
deriving DecidableEq

/-- The sentinel parent id marking a top-level node. -/
def rootId : Str := "root".data

/-- Number of keys not yet visited: the termination measure of both
hierarchy walks (each iteration adds one unvisited map key to the visited
set). -/
def keysLeft (keys : List Str) (visited : List Str) : Nat :=
  match keys with
  | [] => 0
  | a :: t => if a ∈ visited then keysLeft t visited else keysLeft t visited + 1

/-- Embeds the full-path `while` loop of
`RekordboxPlaylistCopier.get_all_playlists`
(`copy_rekordbox_playlists_to_usb.py` lines 336-348): collect names walking
toward the root, stopping at the sentinel, on revisiting an id, or when the
current id is absent from the loaded map. -/
def buildPathParts (idMap : List (Str × PNode)) (visited : List Str)
    (cur : Option Str) : List Str :=
  match cur with
  | none => []
  | some c =>
    if hcond : c = rootId ∨ c ∈ visited then []
    else
      match hfind : assocFind idMap c with
      | some nd => nd.name :: buildPathParts idMap (c :: visited) nd.parent_id
      | none => []
termination_by keysLeft (idMap.map Prod.fst) visited
decreasing_by
  have hmemAux : ∀ (m : List (Str × PNode)), assocFind m c = some nd →
      c ∈ m.map Prod.fst := by
    intro m
    induction m with
    | nil => intro hf; simp [assocFind] at hf
    | cons e t ih =>
      intro hf
      by_cases he : e.1 = c
      · have : c ∈ List.map Prod.fst (e :: t) := by
          rw [List.map_cons, he]; exact List.mem_cons_self _ _
        exact this
      · exact List.mem_cons_of_mem _ (ih (by simpa [assocFind, he] using hf))
  have hnv : c ∉ visited := fun hm => hcond (Or.inr hm)
  have hle : ∀ (keys : List Str),
      keysLeft keys (c :: visited) ≤ keysLeft keys visited := by
    intro keys
    induction keys with
    | nil => simp [keysLeft]
    | cons a t ih =>
      by_cases hav : a ∈ visited
      · have ha1 : a ∈ c :: visited := List.mem_cons_of_mem _ hav
        simpa [keysLeft, hav, ha1] using ih
      · by_cases hac : a = c
        · have ha1 : a ∈ c :: visited := by
            rw [hac]; exact List.mem_cons_self _ _
          simp only [keysLeft, if_pos ha1, if_neg hav]
          omega
        · have ha1 : a ∉ c :: visited := by
            intro hm
            rcases List.mem_cons.mp hm with h1 | h1
            · exact hac h1
            · exact hav h1
          simp only [keysLeft, if_neg ha1, if_neg hav]
          omega
  have hlt : ∀ (keys : List Str), c ∈ keys →
      keysLeft keys (c :: visited) < keysLeft keys visited := by
    intro keys hc
    induction keys with
    | nil => cases hc
    | cons a t ih =>
      by_cases hac : a = c
      · have ha1 : a ∈ c :: visited := by
          rw [hac]; exact List.mem_cons_self _ _
        have hav : a ∉ visited := by rw [hac]; exact hnv
        simp only [keysLeft, if_pos ha1, if_neg hav]
        exact Nat.lt_succ_of_le (hle t)
      · have hmemt : c ∈ t := by
          rcases List.mem_cons.mp hc with h1 | h1
          · exact absurd h1.symm hac
          · exact h1
        by_cases hav : a ∈ visited
        · have ha1 : a ∈ c :: visited := List.mem_cons_of_mem _ hav
          simpa [keysLeft, ha1, hav] using ih hmemt
        · have ha1 : a ∉ c :: visited := by
            intro hm
            rcases List.mem_cons.mp hm with h1 | h1
            · exact hac h1
            · exact hav h1
          simp only [keysLeft, if_neg ha1, if_neg hav]
          exact Nat.succ_lt_succ (ih hmemt)
  exact hlt (idMap.map Prod.fst) (hmemAux idMap hfind)

/-- Embeds the `while` loop of `RekordboxUSBExporter.playlist_path`
(`export_rekordbox_playlists_to_usb.py` lines 188-199): `cur` is the id
about to be looked up (`id_to_node.get` returning `None` ends the loop);
the loop stops on revisiting an id, and breaks after appending when the
parent pointer is empty or the root sentinel. -/
def playlist_path_parts (idMap : List (Str × PNode)) (visited : List Str)
    (cur : Option Str) : List Str :=
  match cur with
  | none => []
  | some cid =>
    match hfind : assocFind idMap cid with
    | none => []
    | some nd =>
      if hv : cid ∈ visited then []
      else
        nd.name ::
          (match nd.parent_id with
           | none => []
           | some pp =>
             if pp = rootId then []
             else playlist_path_parts idMap (cid :: visited) (some pp))
termination_by keysLeft (idMap.map Prod.fst) visited
decreasing_by
  have hmemAux : ∀ (m : List (Str × PNode)), assocFind m cid = some nd →
      cid ∈ m.map Prod.fst := by
    intro m
    induction m with
    | nil => intro hf; simp [assocFind] at hf
    | cons e t ih =>
      intro hf
      by_cases he : e.1 = cid
      · have : cid ∈ List.map Prod.fst (e :: t) := by
          rw [List.map_cons, he]; exact List.mem_cons_self _ _
        exact this
      · exact List.mem_cons_of_mem _ (ih (by simpa [assocFind, he] using hf))
  have hle : ∀ (keys : List Str),
      keysLeft keys (cid :: visited) ≤ keysLeft keys visited := by
    intro keys
    induction keys with
    | nil => simp [keysLeft]
    | cons a t ih =>
      by_cases hav : a ∈ visited
      · have ha1 : a ∈ cid :: visited := List.mem_cons_of_mem _ hav
        simpa [keysLeft, hav, ha1] using ih
      · by_cases hac : a = cid
        · have ha1 : a ∈ cid :: visited := by
            rw [hac]; exact List.mem_cons_self _ _
          simp only [keysLeft, if_pos ha1, if_neg hav]
          omega
        · have ha1 : a ∉ cid :: visited := by
            intro hm
            rcases List.mem_cons.mp hm with h1 | h1
            · exact hac h1
            · exact hav h1
          simp only [keysLeft, if_neg ha1, if_neg hav]
          omega
  have hlt : ∀ (keys : List Str), cid ∈ keys →
      keysLeft keys (cid :: visited) < keysLeft keys visited := by
    intro keys hc
    induction keys with
    | nil => cases hc
    | cons a t ih =>
      by_cases hac : a = cid
      · have ha1 : a ∈ cid :: visited := by
          rw [hac]; exact List.mem_cons_self _ _
        have hav : a ∉ visited := by rw [hac]; exact hv
        simp only [keysLeft, if_pos ha1, if_neg hav]
        exact Nat.lt_succ_of_le (hle t)
      · have hmemt : cid ∈ t := by
          rcases List.mem_cons.mp hc with h1 | h1
          · exact absurd h1.symm hac
          · exact h1
        by_cases hav : a ∈ visited
        · have ha1 : a ∈ cid :: visited := List.mem_cons_of_mem _ hav
          simpa [keysLeft, ha1, hav] using ih hmemt
        · have ha1 : a ∉ cid :: visited := by
            intro hm
            rcases List.mem_cons.mp hm with h1 | h1
            · exact hac h1
            · exact hav h1
          simp only [keysLeft, if_neg ha1, if_neg hav]
          exact Nat.succ_lt_succ (ih hmemt)
  exact hlt (idMap.map Prod.fst) (hmemAux idMap hfind)

/-- A small node map for concrete checks: ids 1 and 2 form a parent-pointer
cycle; node 3's parent id 9 is absent from the map. -/
def demoNodeMap : List (Str × PNode) :=
  [("1".data, ⟨"1".data, "A".data, some "2".data⟩),
   ("2".data, ⟨"2".data, "B".data, some "1".data⟩),
   ("3".data, ⟨"3".data, "C".data, some "9".data⟩)]

/-- The node of `demoNodeMap` whose parent id is absent. -/
def demoNodeC : PNode := ⟨"3".data, "C".data, some "9".data⟩

/-- Embeds `RekordboxUSBExporter.playlist_path`
(`export_rekordbox_playlists_to_usb.py` lines 188-203): the reversed walk,
split into the directory components (`parts[:-1]`, `Path(".")` modelled as
no components) and the display name (`parts[-1]`, falling back to the
playlist id when the walk is empty). -/
def playlist_path (idMap : List (Str × PNode)) (pid : Str) :
    List Str × Str :=
  let parts := (playlist_path_parts idMap [] (some pid)).reverse
  (parts.dropLast, parts.getLastD pid)

/-! Manifest writing.  The export script writes absolute path lines
(`build_m3u8`); the copy script writes path lines relative to the manifest
file's directory via `os.path.relpath`.  Absolute paths are modelled as
their lists of nonempty components (`os.path.relpath` splits both paths
into components after making them absolute). -/

/-- Models `Path.name`: the last slash-separated component. -/
def lastComp (p : Str) : Str := (p.reverse.takeWhile (· != '/')).reverse

/-- Join lines with a newline, modelling `"\n".join(lines)`. -/
def joinNL : List Str → Str
  | [] => []
  | [x] => x
  | x :: y :: t => x ++ '\n' :: joinNL (y :: t)

/-- The per-track line pairs of `build_m3u8`
(`export_rekordbox_playlists_to_usb.py` lines 68-72): an `#EXTINF` metadata
line (`title or abs_path.name`), then `str(abs_path)` — the absolute
destination path — as the path line. -/
def m3u8TrackSection : List (Str × Str) → List Str
  | [] => []
  | tp :: rest =>
    ("#EXTINF:0,".data ++ (if tp.1 = [] then lastComp tp.2 else tp.1)) ::
      tp.2 :: m3u8TrackSection rest

/-- The line list built by `build_m3u8`
(`export_rekordbox_playlists_to_usb.py` lines 66-72). -/
def build_m3u8_lines (playlist_name : Str) (tracks : List (Str × Str)) :
    List Str :=
  "#EXTM3U".data ::
    ("# ".data ++ playlist_name ++ " - Exported from Rekordbox".data) ::
    m3u8TrackSection tracks

/-- Embeds `build_m3u8` (`export_rekordbox_playlists_to_usb.py` lines
66-73): `"\n".join(lines) + "\n"`. -/
def build_m3u8 (playlist_name : Str) (tracks : List (Str × Str)) : Str :=
  joinNL (build_m3u8_lines playlist_name tracks) ++ ['\n']

/-- Length of the longest common component prefix, as computed by
`os.path.commonprefix` on the two component lists. -/
def commonLen : List Str → List Str → Nat
  | a :: as2, b :: bs => if a = b then commonLen as2 bs + 1 else 0
  | _, _ => 0

/-- Models `os.path.relpath(path, start)` on absolute component lists: the
components of the result — `..` once for every `start` component past the
common prefix, then the remaining `path` components. -/
def relpathComps (pathC startC : List Str) : List Str :=
  List.replicate (startC.length - commonLen startC pathC) "..".data ++
    pathC.drop (commonLen startC pathC)

/-- Join components with `/`. -/
def joinSlash : List Str → Str
  | [] => []
  | [x] => x
  | x :: y :: t => x ++ '/' :: joinSlash (y :: t)

/-- Models `os.path.relpath(path, start)` as a string (`"."` when the two
directories coincide). -/
def relpath (pathC startC : List Str) : Str :=
  if relpathComps pathC startC = [] then ".".data
  else joinSlash (relpathComps pathC startC)

/-- The two lines appended per track by
`RekordboxPlaylistCopier.create_m3u8_playlist`
(`copy_rekordbox_playlists_to_usb.py` lines 538-543): the `#EXTINF`
metadata line, then `os.path.relpath(dest_path, playlist_file.parent)` as
the path line. -/
def m3u8_track_lines (artist title : Str) (destC dirC : List Str) :
    List Str :=
  ["#EXTINF:-1,".data ++ artist ++ " - ".data ++ title, relpath destC dirC]

/-- Stack-based `..` normalisation: resolving a relative traversal against
a directory, component by component (`..` pops one directory). -/
def normDotsAux : List Str → List Str → List Str
  | acc, [] => acc.reverse
  | acc, c :: rest =>
    if c = "..".data then normDotsAux (acc.drop 1) rest
    else normDotsAux (c :: acc) rest

/-- Normalise a component list by resolving `..` entries. -/
def normDots (l : List Str) : List Str := normDotsAux [] l

/-- Resolve a relative component list against a directory: append and
normalise. -/
def resolveRelAgainst (dirC relC : List Str) : List Str :=
  normDots (dirC ++ relC)

/-! The export run (`RekordboxUSBExporter.export`,
`export_rekordbox_playlists_to_usb.py` lines 225-313).  The catalog is the
list of eligible (non-smart) playlist nodes with their track rows, in
database order; source and destination files share one file system. -/

/-- One track row of `playlist_tracks`: the display title and the resolved
absolute source path. -/
structure RBTrack where
  title : Str
  src : Str
deriving DecidableEq

/-- Embeds `map_src_to_usb_tree` (`export_rekordbox_playlists_to_usb.py`
lines 57-63): mirror the absolute source path under the music root by
removing the leading separator. -/
def map_src_to_usb_tree (music_root : Str) (src_abs : Str) : Str :=
  music_root ++ (if src_abs.head? = some '/' then src_abs else '/' :: src_abs)

/-- Accumulator of the per-track copy loop inside `export` (lines 274-298):
file system, shared state (for checkpoints), the `exported` list, the
`copied` counter, and the number of `copy_file_atomic` invocations. -/
structure TrackAcc where
  fs : FST
  st : State
  exported : List (Str × Str)
  copied : Nat
  ncopy : Nat
deriving DecidableEq

/-- One iteration of the per-track loop of `export` (lines 276-298):
skip a missing source; otherwise copy unless the destination already exists
with the same size, append to `exported`, bump `copied`; then checkpoint
the state (`completed: False`) whenever `copied % 50 == 0`. -/
def exportTrackStep (music_root pid pname : Str) (total : Nat)
    (t : RBTrack) (acc : TrackAcc) : TrackAcc :=
  let dest := map_src_to_usb_tree music_root t.src
  let acc1 : TrackAcc :=
    if (assocFind acc.fs t.src).isSome then
      let cp := export_copy_step acc.fs t.src dest
      { acc with
        fs := cp.1,
        exported := acc.exported ++ [(t.title, dest)],
        copied := acc.copied + 1,
        ncopy := acc.ncopy + cp.2 }
    else acc
  if acc1.copied % 50 = 0 then
    { acc1 with
      st := assocSet acc1.st pid ⟨false, total, acc1.copied, none, pname⟩ }
  else acc1

/-- The per-track loop of `export` over a playlist's track rows. -/
def exportTracks (music_root pid pname : Str) (total : Nat) :
    List RBTrack → TrackAcc → TrackAcc
  | [], acc => acc
  | t :: rest, acc =>
    exportTracks music_root pid pname total rest
      (exportTrackStep music_root pid pname total t acc)

/-- The whole-run accumulator: shared state, file system, number of
`copy_file_atomic` invocations, and the `processed` counter. -/
structure ExpSt where
  st : State
  fs : FST
  ncopy : Nat
  processed : Nat
deriving DecidableEq

/-- Models `if limit and processed >= limit: break` (line 248); `--limit 0`
is passed as `none` by `main`. -/
def limitHit : Option Nat → Nat → Bool
  | none, _ => false
  | some l, processed => decide (l ≤ processed)

/-- Whether the persisted record of a playlist says `completed`
(`status.get("completed")`, line 257). -/
def recCompleted (st : State) (pid : Str) : Bool :=
  match assocFind st pid with
  | some r => r.completed
  | none => false

/-- Models `str.lower()` (ASCII case folding suffices here). -/
def lowerStr (s : Str) : Str := s.map Char.toLower

/-- Models the `--include-path-contains` filter check (lines 266-270). -/
def pathFilterMatch (filters : List Str) (rel_dir : List Str)
    (display : Str) : Bool :=
  filters.any (fun f =>
    containsSub (lowerStr (joinSlash (rel_dir ++ [display]))) (lowerStr f))

/-- The manifest path `(playlists_root / rel_dir) / (display + ".m3u8")`
(lines 262-263). -/
def mkM3u8Path (playlists_root : Str) (rel_dir : List Str)
    (display : Str) : Str :=
  joinSlash ((playlists_root :: rel_dir) ++ [display ++ ".m3u8".data])

/-- The per-playlist loop of `export` (lines 247-313): honour the limit,
skip track-less nodes (folders), skip playlists already `completed` in the
loaded state, apply the optional path filter, run the track loop, write the
manifest when anything was exported, and mark the playlist completed. -/
def exportLoop (idMap : List (Str × PNode)) (music_root playlists_root : Str)
    (limit : Option Nat) (filters : List Str) :
    List (PNode × List RBTrack) → ExpSt → ExpSt
  | [], s => s
  | (p, tr) :: rest, s =>
    if limitHit limit s.processed then s
    else if tr = [] then
      exportLoop idMap music_root playlists_root limit filters rest s
    else
      let s1 : ExpSt := { s with processed := s.processed + 1 }
      if recCompleted s1.st p.id then
        exportLoop idMap music_root playlists_root limit filters rest s1
      else
        let pd := playlist_path idMap p.id
        let m3u8_path := mkM3u8Path playlists_root pd.1 pd.2
        if filters ≠ [] ∧ ¬ (pathFilterMatch filters pd.1 pd.2 = true) then
          exportLoop idMap music_root playlists_root limit filters rest s1
        else
          let r := exportTracks music_root p.id p.name tr.length tr
            ⟨s1.fs, s1.st, [], 0, 0⟩
          let fs2 := if r.exported ≠ [] then
              assocSet r.fs m3u8_path (build_m3u8 pd.2 r.exported)
            else r.fs
          let st2 := assocSet r.st p.id
            ⟨true, tr.length, r.copied, some m3u8_path, p.name⟩
          exportLoop idMap music_root playlists_root limit filters rest
            ⟨st2, fs2, s1.ncopy + r.ncopy, s1.processed⟩

/-- A full export run (`export` with resume: the caller passes the loaded
state and the current destination file system). -/
def exportRun (idMap : List (Str × PNode)) (music_root playlists_root : Str)
    (limit : Option Nat) (filters : List Str)
    (catalog : List (PNode × List RBTrack)) (st0 : State) (fs0 : FST) :
    ExpSt :=
  exportLoop idMap music_root playlists_root limit filters catalog
    ⟨st0, fs0, 0, 0⟩

/-- A one-playlist catalog for concrete checks. -/
def demoP : PNode := ⟨"7".data, "N".data, none⟩

/-- A track of the demo playlist. -/
def demoTrack : RBTrack := ⟨"T".data, "/s/a.flac".data⟩

/-- The demo catalog. -/
def demoCatalog : List (PNode × List RBTrack) := [(demoP, [demoTrack])]

/-- A state in which the demo playlist is already completed. -/
def demoStC : State := [("7".data, ⟨true, 1, 1, none, "N".data⟩)]

/-- C1: For the four known malformation patterns the copy script's resolver
`normalize_rekordbox_path` returns the single correct canonical path —
plain concatenation, folder-already-includes-filename, duplicated filename
segment, and filename-as-interior-segment all yield `/music/Song.flac`
(respectively `/a/Song.flac`) — while the export script's
`_normalize_rb_path` returns the doubled path `/music/Song.flac/Song.flac`
on the folder-already-includes-filename input, contradicting its own
"guard against double join" comment. -/
theorem c1_path_malformations :
    normalize_rekordbox_path [] "/music/".data "Song.flac".data =
      some "/music/Song.flac".data ∧
    normalize_rekordbox_path [] "/music/Song.flac".data "Song.flac".data =
      some "/music/Song.flac".data ∧
    normalize_rekordbox_path [] "/music/Song.flac/Song.flac".data "Song.flac".data =
      some "/music/Song.flac".data ∧
    normalize_rekordbox_path [] "/a/Song.flac/b".data "Song.flac".data =
      some "/a/Song.flac".data ∧
    _normalize_rb_path "/music/Song.flac".data "Song.flac".data =
      Except.ok "/music/Song.flac/Song.flac".data :=
  ⟨by decide, by decide, by decide, by decide, rfl⟩

/-- C4: if the destination file exists and its size equals the source's
size, the copy helpers skip: `atomic_copy_file` reports `copied = False`
and leaves the file system (hence the destination's content) unchanged, and
the export script's per-track guard performs zero copies — regardless of
whether the contents actually match. -/
theorem c4_same_size_skip (fs : FST) (src dest : Str) (sc dc : Str)
    (hsrc : assocFind fs src = some sc) (hdest : assocFind fs dest = some dc)
    (hsize : sc.length = dc.length) :
    atomic_copy_file fs src dest = (false, fs) ∧
    export_copy_step fs src dest = (fs, 0) := by
  constructor
  · simp [atomic_copy_file, hsrc, hdest, hsize]
  · simp [export_copy_step, file_same_size, hsrc, hdest, hsize]

/-- C4 witness: a concrete source and destination of equal size (different
content) are skipped. -/
theorem c4_same_size_skip_witness :
    assocFind [("/s/a".data, "xyz".data), ("/u/a".data, "abc".data)] "/s/a".data
      = some "xyz".data ∧
    assocFind [("/s/a".data, "xyz".data), ("/u/a".data, "abc".data)] "/u/a".data
      = some "abc".data ∧
    ("xyz".data.length = "abc".data.length) ∧
    (atomic_copy_file [("/s/a".data, "xyz".data), ("/u/a".data, "abc".data)]
        "/s/a".data "/u/a".data
      = (false, [("/s/a".data, "xyz".data), ("/u/a".data, "abc".data)]) ∧
     export_copy_step [("/s/a".data, "xyz".data), ("/u/a".data, "abc".data)]
        "/s/a".data "/u/a".data
      = ([("/s/a".data, "xyz".data), ("/u/a".data, "abc".data)], 0)) :=
  ⟨by decide, by decide, by decide,
   c4_same_size_skip [("/s/a".data, "xyz".data), ("/u/a".data, "abc".data)]
     "/s/a".data "/u/a".data "xyz".data "abc".data
     (by decide) (by decide) (by decide)⟩

/-- C10: if the persisted state file exists but its content does not parse,
`load_state` returns normally (the embedding is total; the Python
`except: pass` is modelled by `parseJson` returning `none`), keeps the
initial default state unchanged, and leaves the file system — in particular
the corrupt state file — untouched. -/
theorem c10_corrupt_state (parseJson : Str → Option State) (fs : FST)
    (state_path : Str) (st0 : State) (txt : Str)
    (hfile : assocFind fs state_path = some txt)
    (hbad : parseJson txt = none) :
    load_state true parseJson fs state_path st0 = (st0, fs) := by
  simp [load_state, hfile, hbad]

/-- C10 witness: a concrete corrupt state file. -/
theorem c10_corrupt_state_witness :
    assocFind [(".alldj_export_state.json".data, "not json".data)]
        ".alldj_export_state.json".data = some "not json".data ∧
    ((fun _ : Str => (none : Option State)) "not json".data = none) ∧
    load_state true (fun _ => none)
        [(".alldj_export_state.json".data, "not json".data)]
        ".alldj_export_state.json".data []
      = ([], [(".alldj_export_state.json".data, "not json".data)]) :=
  ⟨by decide, rfl,
   c10_corrupt_state (fun _ => none)
     [(".alldj_export_state.json".data, "not json".data)]
     ".alldj_export_state.json".data [] "not json".data (by decide) rfl⟩

/-- Lookup after setting the same key. -/
theorem assocFind_set_eq {β : Type} (m : List (Str × β)) (k : Str) (v : β) :
    assocFind (assocSet m k v) k = some v := by
  simp [assocFind, assocSet]

/-- Lookup after setting a different key. -/
theorem assocFind_set_ne {β : Type} (m : List (Str × β)) (k q : Str) (v : β)
    (h : k ≠ q) : assocFind (assocSet m k v) q = assocFind m q := by
  simp [assocFind, assocSet, h]

/-- Lookup after deleting a different key. -/
theorem assocFind_del_ne {β : Type} (m : List (Str × β)) (k q : Str)
    (h : q ≠ k) : assocFind (assocDel m k) q = assocFind m q := by
  induction m with
  | nil => rfl
  | cons e t ih =>
    by_cases he : e.1 = k
    · have hq : ¬ e.1 = q := by rw [he]; exact fun hh => h hh.symm
      have hkq : ¬ k = q := fun hh => h hh.symm
      simp [assocDel, assocFind, he, hq, hkq, ih]
    · by_cases hq : e.1 = q
      · simp [assocDel, assocFind, he, hq, h]
      · simp [assocDel, assocFind, he, hq, ih]

/-- Writes to a temp file do not change any other path. -/
theorem runSteps_writeTmp_other (t dest : Str) (h : t ≠ dest)
    (cs : List Str) :
    ∀ fs : FST, assocFind (runSteps fs (cs.map (WStep.writeTmp t))) dest
      = assocFind fs dest := by
  induction cs with
  | nil => intro fs; rfl
  | cons c cs ih =>
    intro fs
    simp only [List.map_cons, runSteps, List.foldl_cons]
    have := ih (applyStep fs (WStep.writeTmp t c))
    simp only [runSteps] at this
    rw [this, applyStep, assocFind_set_ne _ _ _ _ h]

/-- After streaming chunks into a temp file holding `cur`, the temp file
holds `cur` followed by all chunks. -/
theorem runSteps_writeTmp_content (t : Str) (cs : List Str) :
    ∀ (fs : FST) (cur : Str), assocFind fs t = some cur →
      assocFind (runSteps fs (cs.map (WStep.writeTmp t))) t
        = some (cur ++ joinAll cs) := by
  induction cs with
  | nil => intro fs cur hc; simpa [runSteps, joinAll] using hc
  | cons c cs ih =>
    intro fs cur hc
    simp only [List.map_cons, runSteps, List.foldl_cons]
    have h2 : assocFind (applyStep fs (WStep.writeTmp t c)) t = some (cur ++ c) := by
      rw [applyStep, hc]
      simpa using assocFind_set_eq fs t (cur ++ c)
    have := ih (applyStep fs (WStep.writeTmp t c)) (cur ++ c) h2
    simp only [runSteps] at this
    rw [this, List.append_assoc]
    rfl

/-- Dropping up to the first slash of a slash-free block. -/
theorem dropWhile_until_slash (xs ys : Str) (h : ('/' : Char) ∉ xs) :
    List.dropWhile (· != '/') (xs ++ '/' :: ys) = '/' :: ys := by
  induction xs with
  | nil => simp [List.dropWhile]
  | cons x t ih =>
    have hx : (x != '/') = true := by
      have hne : x ≠ '/' := fun hh => h (hh ▸ List.mem_cons_self x t)
      simpa using hne
    have ht : ('/' : Char) ∉ t := fun hh => h (List.mem_cons_of_mem x hh)
    simp only [List.cons_append, List.dropWhile_cons, hx, if_true]
    exact ih ht

/-- The temp file lives in the destination's own directory. -/
theorem dirOf_tmpPathFor (dest tmpName : Str) (h : ('/' : Char) ∉ tmpName) :
    dirOf (tmpPathFor dest tmpName) = dirOf dest := by
  show dirOf (dirOf dest ++ '/' :: tmpName) = dirOf dest
  unfold dirOf
  rw [List.reverse_append, List.reverse_cons, List.append_assoc,
    List.singleton_append,
    dropWhile_until_slash _ _ (by simpa using h)]
  simp

/-- C2: both atomic writers (`copy_file_atomic` for destination audio
files, `atomic_write_text` for manifests and the state file) first write
the full content to a temp file in the destination's own directory and only
then rename it onto the final path: after any proper prefix of the step
trace — i.e. at every reachable intermediate state, including interruption
— the final path still holds exactly its old content (or still does not
exist), and after the full trace it holds exactly the complete new
content. -/
theorem c2_atomic_temp_rename (fs : FST) (dest tmpName : Str)
    (chunks : List Str)
    (hns : ('/' : Char) ∉ tmpName)
    (hneq : tmpPathFor dest tmpName ≠ dest)
    (hfresh : assocFind fs (tmpPathFor dest tmpName) = none) :
    dirOf (tmpPathFor dest tmpName) = dirOf dest ∧
    (∀ k, k ≤ chunks.length + 1 →
      assocFind (runSteps fs ((copy_file_atomic_steps dest tmpName chunks).take k))
          dest
        = assocFind fs dest) ∧
    assocFind (runSteps fs (copy_file_atomic_steps dest tmpName chunks)) dest
      = some (joinAll chunks) ∧
    atomic_write_text_steps dest tmpName (joinAll chunks)
      = copy_file_atomic_steps dest tmpName [joinAll chunks] := by
  refine ⟨dirOf_tmpPathFor dest tmpName hns, ?_, ?_, rfl⟩
  · intro k hk
    match k with
    | 0 => rfl
    | (k' + 1) =>
      have hk' : k' ≤ chunks.length := by omega
      simp only [copy_file_atomic_steps, tempThenRename]
      rw [List.take_append_eq_append_take]
      have hz : k' + 1 -
          (WStep.writeTmp (tmpPathFor dest tmpName) [] ::
            List.map (WStep.writeTmp (tmpPathFor dest tmpName)) chunks).length
          = 0 := by
        simp only [List.length_cons, List.length_map]; omega
      rw [hz]
      simp only [List.take_zero, List.append_nil, List.take_succ_cons,
        ← List.map_take]
      simp only [runSteps, List.foldl_cons]
      have := runSteps_writeTmp_other (tmpPathFor dest tmpName) dest hneq
        (chunks.take k')
        (applyStep fs (WStep.writeTmp (tmpPathFor dest tmpName) []))
      simp only [runSteps] at this
      rw [this, applyStep, assocFind_set_ne _ _ _ _ hneq]
  · have h1 : assocFind (applyStep fs
        (WStep.writeTmp (tmpPathFor dest tmpName) []))
        (tmpPathFor dest tmpName) = some [] := by
      rw [applyStep, hfresh]
      simpa using assocFind_set_eq fs (tmpPathFor dest tmpName) []
    have h2 := runSteps_writeTmp_content (tmpPathFor dest tmpName) chunks
      (applyStep fs (WStep.writeTmp (tmpPathFor dest tmpName) [])) [] h1
    simp only [runSteps, List.nil_append] at h2
    simp only [copy_file_atomic_steps, tempThenRename, runSteps,
      List.foldl_append, List.foldl_cons, List.foldl_nil]
    generalize hX : List.foldl applyStep
      (applyStep fs (WStep.writeTmp (tmpPathFor dest tmpName) []))
      (List.map (WStep.writeTmp (tmpPathFor dest tmpName)) chunks) = X at h2 ⊢
    rw [applyStep, h2]
    exact assocFind_set_eq _ dest (joinAll chunks)

/-- C2 witness: a concrete two-chunk copy over an existing destination. -/
theorem c2_atomic_temp_rename_witness :
    (('/' : Char) ∉ "tmpX".data) ∧
    (tmpPathFor "/u/a.txt".data "tmpX".data ≠ "/u/a.txt".data) ∧
    (assocFind [("/u/a.txt".data, "old".data)]
      (tmpPathFor "/u/a.txt".data "tmpX".data) = none) ∧
    (dirOf (tmpPathFor "/u/a.txt".data "tmpX".data) = dirOf "/u/a.txt".data ∧
     (∀ k, k ≤ ["ne".data, "w".data].length + 1 →
       assocFind (runSteps [("/u/a.txt".data, "old".data)]
           ((copy_file_atomic_steps "/u/a.txt".data "tmpX".data
             ["ne".data, "w".data]).take k)) "/u/a.txt".data
         = assocFind [("/u/a.txt".data, "old".data)] "/u/a.txt".data) ∧
     assocFind (runSteps [("/u/a.txt".data, "old".data)]
         (copy_file_atomic_steps "/u/a.txt".data "tmpX".data
           ["ne".data, "w".data])) "/u/a.txt".data
       = some (joinAll ["ne".data, "w".data]) ∧
     atomic_write_text_steps "/u/a.txt".data "tmpX".data
         (joinAll ["ne".data, "w".data])
       = copy_file_atomic_steps "/u/a.txt".data "tmpX".data
           [joinAll ["ne".data, "w".data]]) :=
  ⟨by decide, by decide, by decide,
   c2_atomic_temp_rename [("/u/a.txt".data, "old".data)] "/u/a.txt".data
     "tmpX".data ["ne".data, "w".data] (by decide) (by decide) (by decide)⟩

/-- C6 counterexample: a track whose source does not exist (and with no I/O
error anywhere) is skipped, yet the failure counter `tracks_failed` is
incremented to 1 — the counter is not incremented only by I/O errors, so
the claim as stated is false on the copy script. -/
theorem c6_counterexample :
    (copy_playlist_tracks "/U/M".data (fun _ => false)
        [⟨"T".data, "/s/a.flac".data, "a.flac".data, 5, false⟩]
        ⟨[], ⟨0, 0, 0, 0, 0⟩, [], 0, 0⟩).stats.tracks_failed = 1 ∧
    (copy_playlist_tracks "/U/M".data (fun _ => false)
        [⟨"T".data, "/s/a.flac".data, "a.flac".data, 5, false⟩]
        ⟨[], ⟨0, 0, 0, 0, 0⟩, [], 0, 0⟩).copied_tracks = [] ∧
    (copy_playlist_tracks "/U/M".data (fun _ => false)
        [⟨"T".data, "/s/a.flac".data, "a.flac".data, 5, false⟩]
        ⟨[], ⟨0, 0, 0, 0, 0⟩, [], 0, 0⟩).fs = [] := by
  decide

/-- C6 amended: a track whose resolved source does not exist is skipped —
no copy is attempted (file system unchanged), it is not handed to the
manifest writer — but it does increment the failure counter, exactly as an
I/O error during an attempted copy does; in either case the loop continues
with the remaining tracks instead of aborting the playlist. -/
theorem c6_missing_counted_failed (music_root : Str) (ioErr : CTrack → Bool)
    (t u : CTrack) (rest : List CTrack) (acc : CopyLoopRes)
    (hmiss : t.src_exists = false)
    (huex : u.src_exists = true) (huio : ioErr u = true) :
    copy_playlist_tracks music_root ioErr (t :: rest) acc =
      copy_playlist_tracks music_root ioErr rest
        { acc with
          stats := { acc.stats with
            tracks_total := acc.stats.tracks_total + 1,
            tracks_failed := acc.stats.tracks_failed + 1 },
          fc := acc.fc + 1 } ∧
    copy_playlist_tracks music_root ioErr (u :: rest) acc =
      copy_playlist_tracks music_root ioErr rest
        { acc with
          stats := { acc.stats with
            tracks_total := acc.stats.tracks_total + 1,
            tracks_failed := acc.stats.tracks_failed + 1 },
          fc := acc.fc + 1 } := by
  constructor
  · simp [copy_playlist_tracks, hmiss]
  · simp [copy_playlist_tracks, huex, huio]

/-- C6 amended witness: a missing track and an I/O-failing track. -/
theorem c6_missing_counted_failed_witness :
    ((⟨"T".data, "/s/a.flac".data, "a.flac".data, 5, false⟩ : CTrack).src_exists
      = false) ∧
    ((⟨"U".data, "/s/b.flac".data, "b.flac".data, 7, true⟩ : CTrack).src_exists
      = true) ∧
    ((fun _ : CTrack => true) ⟨"U".data, "/s/b.flac".data, "b.flac".data, 7, true⟩
      = true) ∧
    (copy_playlist_tracks "/U/M".data (fun _ => true)
        [⟨"T".data, "/s/a.flac".data, "a.flac".data, 5, false⟩]
        ⟨[], ⟨0, 0, 0, 0, 0⟩, [], 0, 0⟩ =
      copy_playlist_tracks "/U/M".data (fun _ => true) []
        ⟨[], ⟨1, 0, 0, 1, 0⟩, [], 0, 1⟩ ∧
     copy_playlist_tracks "/U/M".data (fun _ => true)
        [⟨"U".data, "/s/b.flac".data, "b.flac".data, 7, true⟩]
        ⟨[], ⟨0, 0, 0, 0, 0⟩, [], 0, 0⟩ =
      copy_playlist_tracks "/U/M".data (fun _ => true) []
        ⟨[], ⟨1, 0, 0, 1, 0⟩, [], 0, 1⟩) :=
  ⟨rfl, rfl, rfl,
   c6_missing_counted_failed "/U/M".data (fun _ => true)
     ⟨"T".data, "/s/a.flac".data, "a.flac".data, 5, false⟩
     ⟨"U".data, "/s/b.flac".data, "b.flac".data, 7, true⟩
     [] ⟨[], ⟨0, 0, 0, 0, 0⟩, [], 0, 0⟩ rfl rfl rfl⟩

/-- C8 counterexample: in the export script's per-playlist loop an
exception raised while processing the first playlist is not caught — the
whole export aborts with the error and the second playlist is never
processed, so the claim as stated is false on
`RekordboxUSBExporter.export`. -/
theorem c8_counterexample :
    export_loop_uncaught
      (fun pid st =>
        if pid = "A".data then Except.error "boom".data
        else Except.ok (assocSet st pid ⟨true, 0, 0, none, pid⟩))
      ["A".data, "B".data] [] = Except.error "boom".data := rfl

/-- C8 amended: the copy script's orchestrator (`run`) does catch a
per-playlist exception: the failure counter is incremented, the shared
state — and with it every other playlist's entry — is left unchanged by the
failure, and the loop continues with the remaining playlists.  The export
script's loop does not catch (see the counterexample). -/
theorem c8_run_catches (process : Str → State → Except Str (Bool × State))
    (pid : Str) (rest : List Str) (st : State) (failed : Nat) (e : Str)
    (h : process pid st = .error e) :
    runLoop process (pid :: rest) st failed
      = runLoop process rest st (failed + 1) := by
  simp [runLoop, h]

/-- C8 amended witness: a process raising on playlist `A`. -/
theorem c8_run_catches_witness :
    ((fun pid (st : State) =>
        if pid = "A".data then Except.error "x".data
        else Except.ok (true, st)) "A".data [] = Except.error "x".data) ∧
    runLoop
      (fun pid st =>
        if pid = "A".data then Except.error "x".data
        else Except.ok (true, st))
      ["A".data, "B".data] [] 0 =
    runLoop
      (fun pid st =>
        if pid = "A".data then Except.error "x".data
        else Except.ok (true, st))
      ["B".data] [] 1 :=
  ⟨rfl,
   c8_run_catches
     (fun pid st =>
       if pid = "A".data then Except.error "x".data
       else Except.ok (true, st))
     "A".data ["B".data] [] 0 "x".data rfl⟩

/-- A successful lookup means the key is among the map's keys. -/
theorem assocFind_mem_keys {β : Type} (m : List (Str × β)) (k : Str) (v : β)
    (h : assocFind m k = some v) : k ∈ m.map Prod.fst := by
  induction m with
  | nil => simp [assocFind] at h
  | cons e t ih =>
    by_cases he : e.1 = k
    · have : k ∈ List.map Prod.fst (e :: t) := by
        rw [List.map_cons, he]; exact List.mem_cons_self _ _
      exact this
    · exact List.mem_cons_of_mem _ (ih (by simpa [assocFind, he] using h))

/-- Visiting one more id never increases the measure. -/
theorem keysLeft_mono_cons (keys : List Str) (c : Str) (visited : List Str) :
    keysLeft keys (c :: visited) ≤ keysLeft keys visited := by
  induction keys with
  | nil => simp [keysLeft]
  | cons a t ih =>
    by_cases hav : a ∈ visited
    · have ha1 : a ∈ c :: visited := List.mem_cons_of_mem _ hav
      simpa [keysLeft, hav, ha1] using ih
    · by_cases hac : a = c
      · have ha1 : a ∈ c :: visited := by rw [hac]; exact List.mem_cons_self _ _
        simp only [keysLeft, if_pos ha1, if_neg hav]
        omega
      · have ha1 : a ∉ c :: visited := by
          intro hm
          rcases List.mem_cons.mp hm with h1 | h1
          · exact hac h1
          · exact hav h1
        simp only [keysLeft, if_neg ha1, if_neg hav]
        omega

/-- Visiting an unvisited key strictly decreases the measure. -/
theorem keysLeft_lt (keys : List Str) (c : Str) (visited : List Str)
    (hc : c ∈ keys) (hnv : c ∉ visited) :
    keysLeft keys (c :: visited) < keysLeft keys visited := by
  induction keys with
  | nil => cases hc
  | cons a t ih =>
    by_cases hac : a = c
    · have ha1 : a ∈ c :: visited := by rw [hac]; exact List.mem_cons_self _ _
      have hav : a ∉ visited := by rw [hac]; exact hnv
      simp only [keysLeft, if_pos ha1, if_neg hav]
      exact Nat.lt_succ_of_le (keysLeft_mono_cons t c visited)
    · have hmemt : c ∈ t := by
        rcases List.mem_cons.mp hc with h1 | h1
        · exact absurd h1.symm hac
        · exact h1
      by_cases hav : a ∈ visited
      · have ha1 : a ∈ c :: visited := List.mem_cons_of_mem _ hav
        simpa [keysLeft, ha1, hav] using ih hmemt
      · have ha1 : a ∉ c :: visited := by
          intro hm
          rcases List.mem_cons.mp hm with h1 | h1
          · exact hac h1
          · exact hav h1
        simp only [keysLeft, if_neg ha1, if_neg hav]
        exact Nat.succ_lt_succ (ih hmemt)

/-- The measure is bounded by the number of keys. -/
theorem keysLeft_le_length (keys : List Str) (visited : List Str) :
    keysLeft keys visited ≤ keys.length := by
  induction keys with
  | nil => simp [keysLeft]
  | cons a t ih =>
    by_cases hav : a ∈ visited
    · simp only [keysLeft, if_pos hav, List.length_cons]
      omega
    · simp only [keysLeft, if_neg hav, List.length_cons]
      omega

/-- The copy script's walk emits at most one name per unvisited map key. -/
theorem buildPathParts_le (idMap : List (Str × PNode)) :
    ∀ (visited : List Str) (cur : Option Str),
      (buildPathParts idMap visited cur).length
        ≤ keysLeft (idMap.map Prod.fst) visited := by
  intro visited cur
  induction visited, cur using buildPathParts.induct idMap with
  | case1 visited =>
    rw [buildPathParts.eq_1]
    simp
  | case2 visited c hcond =>
    rw [buildPathParts.eq_2]
    rw [dif_pos hcond]
    simp
  | case3 visited c hcond nd hfind ih =>
    rw [buildPathParts.eq_2]
    rw [dif_neg hcond]
    split
    next nd2 heq =>
      rw [hfind] at heq
      have hnd : nd2 = nd := (Option.some.inj heq).symm
      subst hnd
      simp only [List.length_cons]
      have h1 := keysLeft_lt (idMap.map Prod.fst) c visited
        (assocFind_mem_keys idMap c nd2 hfind)
        (fun hm => hcond (Or.inr hm))
      omega
    next heq =>
      rw [hfind] at heq
      simp at heq
  | case4 visited c hcond hfind =>
    rw [buildPathParts.eq_2]
    rw [dif_neg hcond]
    split
    next nd2 heq =>
      rw [hfind] at heq
      simp at heq
    next heq => simp

/-- The export script's walk emits at most one name per unvisited map key. -/
theorem playlist_path_parts_le (idMap : List (Str × PNode)) :
    ∀ (visited : List Str) (cur : Option Str),
      (playlist_path_parts idMap visited cur).length
        ≤ keysLeft (idMap.map Prod.fst) visited := by
  intro visited cur
  induction visited, cur using playlist_path_parts.induct idMap with
  | case1 visited =>
    rw [playlist_path_parts.eq_1]
    simp
  | case2 visited cid hfind =>
    rw [playlist_path_parts.eq_2]
    split
    next heq => simp
    next nd2 heq =>
      rw [hfind] at heq
      simp at heq
  | case3 visited cid nd hfind hv =>
    rw [playlist_path_parts.eq_2]
    split
    next heq => simp
    next nd2 heq =>
      rw [dif_pos hv]
      simp
  | case4 visited cid nd hfind hv ih =>
    rw [playlist_path_parts.eq_2]
    split
    next heq =>
      rw [hfind] at heq
      simp at heq
    next nd2 heq =>
      rw [hfind] at heq
      have hnd : nd2 = nd := (Option.some.inj heq).symm
      subst hnd
      rw [dif_neg hv]
      have hlt := keysLeft_lt (idMap.map Prod.fst) cid visited
        (assocFind_mem_keys idMap cid nd2 hfind) hv
      cases hpp : nd2.parent_id with
      | none =>
        simp only [hpp, List.length_cons, List.length_nil]
        omega
      | some pp =>
        simp only [hpp]
        by_cases hr : pp = rootId
        · rw [if_pos hr]
          simp only [List.length_cons, List.length_nil]
          omega
        · rw [if_neg hr]
          have h2 := ih pp
          simp only [List.length_cons]
          omega

/-- C9: both hierarchy walks terminate on every node map — including maps
whose parent pointers form a cycle — because they track visited ids and
never revisit one: the emitted path has at most one name per map entry.
And a node whose parent id is absent from the loaded map is treated as
top-level: its full path is just its own name. -/
theorem c9_cycle_safe_walk (idMap : List (Str × PNode)) (cid : Str)
    (nd : PNode) (pid : Str)
    (hroot : cid ≠ rootId)
    (hfind : assocFind idMap cid = some nd)
    (hpar : nd.parent_id = some pid)
    (habs : assocFind idMap pid = none) :
    buildPathParts idMap [] (some cid) = [nd.name] ∧
    playlist_path_parts idMap [] (some cid) = [nd.name] ∧
    (∀ (vis : List Str) (j : Option Str),
      (buildPathParts idMap vis j).length ≤ idMap.length ∧
      (playlist_path_parts idMap vis j).length ≤ idMap.length) := by
  have hbound : ∀ (vis : List Str) (j : Option Str),
      (buildPathParts idMap vis j).length ≤ idMap.length ∧
      (playlist_path_parts idMap vis j).length ≤ idMap.length := by
    intro vis j
    have hk : keysLeft (idMap.map Prod.fst) vis ≤ idMap.length := by
      have := keysLeft_le_length (idMap.map Prod.fst) vis
      simpa using this
    exact ⟨Nat.le_trans (buildPathParts_le idMap vis j) hk,
      Nat.le_trans (playlist_path_parts_le idMap vis j) hk⟩
  refine ⟨?_, ?_, hbound⟩
  · have hcond : ¬ (cid = rootId ∨ cid ∈ ([] : List Str)) := by
      intro hm
      rcases hm with h1 | h1
      · exact hroot h1
      · cases h1
    rw [buildPathParts.eq_2]
    rw [dif_neg hcond]
    split
    next nd2 heq =>
      rw [hfind] at heq
      have hnd : nd2 = nd := (Option.some.inj heq).symm
      subst hnd
      have htail : buildPathParts idMap [cid] (some pid) = [] := by
        rw [buildPathParts.eq_2]
        by_cases h1 : pid = rootId ∨ pid ∈ [cid]
        · rw [dif_pos h1]
        · rw [dif_neg h1]
          split
          next nd3 heq3 =>
            rw [habs] at heq3
            simp at heq3
          next heq3 => rfl
      rw [hpar, htail]
    next heq =>
      rw [hfind] at heq
      simp at heq
  · rw [playlist_path_parts.eq_2]
    split
    next heq =>
      rw [hfind] at heq
      simp at heq
    next nd2 heq =>
      rw [hfind] at heq
      have hnd : nd2 = nd := (Option.some.inj heq).symm
      subst hnd
      have hv : ¬ cid ∈ ([] : List Str) := fun hm => by cases hm
      rw [dif_neg hv]
      simp only [hpar]
      by_cases h1 : pid = rootId
      · rw [if_pos h1]
      · rw [if_neg h1]
        have htail : playlist_path_parts idMap [cid] (some pid) = [] := by
          rw [playlist_path_parts.eq_2]
          split
          next heq3 => rfl
          next nd3 heq3 =>
            rw [habs] at heq3
            simp at heq3
        rw [htail]

/-- C9 witness: a map containing a genuine 2-cycle (ids 1 and 2) and a node
(id 3) whose parent id 9 is absent from the map. -/
theorem c9_cycle_safe_walk_witness :
    ("3".data ≠ rootId) ∧
    (assocFind demoNodeMap "3".data = some demoNodeC) ∧
    (demoNodeC.parent_id = some "9".data) ∧
    (assocFind demoNodeMap "9".data = none) ∧
    (buildPathParts demoNodeMap [] (some "3".data) = [demoNodeC.name] ∧
     playlist_path_parts demoNodeMap [] (some "3".data) = [demoNodeC.name] ∧
     (∀ (vis : List Str) (j : Option Str),
       (buildPathParts demoNodeMap vis j).length ≤ demoNodeMap.length ∧
       (playlist_path_parts demoNodeMap vis j).length ≤ demoNodeMap.length)) :=
  ⟨by decide, by decide, by decide, by decide,
   c9_cycle_safe_walk demoNodeMap "3".data demoNodeC "9".data
     (by decide) (by decide) (by decide) (by decide)⟩

/-- The common component prefix is no longer than either list. -/
theorem commonLen_le_left : ∀ (a b : List Str), commonLen a b ≤ a.length := by
  intro a
  induction a with
  | nil => intro b; simp [commonLen]
  | cons x t ih =>
    intro b
    cases b with
    | nil => simp [commonLen]
    | cons y bs =>
      by_cases hxy : x = y
      · simp only [commonLen, if_pos hxy, List.length_cons]
        have := ih bs
        omega
      · simp only [commonLen, if_neg hxy]
        omega

/-- The common component prefix is no longer than the second list. -/
theorem commonLen_le_right : ∀ (a b : List Str), commonLen a b ≤ b.length := by
  intro a
  induction a with
  | nil => intro b; simp [commonLen]
  | cons x t ih =>
    intro b
    cases b with
    | nil => simp [commonLen]
    | cons y bs =>
      by_cases hxy : x = y
      · simp only [commonLen, if_pos hxy, List.length_cons]
        have := ih bs
        omega
      · simp only [commonLen, if_neg hxy]
        omega

/-- Up to the common length the two lists agree. -/
theorem commonLen_take : ∀ (a b : List Str),
    a.take (commonLen a b) = b.take (commonLen a b) := by
  intro a
  induction a with
  | nil => intro b; simp [commonLen]
  | cons x t ih =>
    intro b
    cases b with
    | nil => simp [commonLen]
    | cons y bs =>
      by_cases hxy : x = y
      · subst hxy
        have hc : commonLen (x :: t) (x :: bs) = commonLen t bs + 1 := by
          simp [commonLen]
        rw [hc, List.take_succ_cons, List.take_succ_cons, ih bs]
      · have hc : commonLen (x :: t) (y :: bs) = 0 := by
          simp [commonLen, hxy]
        rw [hc]
        simp

/-- One normalisation step on a non-`..` component. -/
theorem normAux_cons_ne (acc : List Str) (c : Str) (rest : List Str)
    (hc : c ≠ "..".data) :
    normDotsAux acc (c :: rest) = normDotsAux (c :: acc) rest := by
  simp [normDotsAux, hc]

/-- One normalisation step on a `..` component. -/
theorem normAux_cons_dd (acc : List Str) (rest : List Str) :
    normDotsAux acc ("..".data :: rest) = normDotsAux (acc.drop 1) rest := by
  simp [normDotsAux]

/-- Normalising a dot-free remainder just appends it to the stack. -/
theorem normAux_flush : ∀ (xs : List Str),
    (∀ x ∈ xs, x ≠ "..".data) →
    ∀ (acc : List Str), normDotsAux acc xs = acc.reverse ++ xs := by
  intro xs
  induction xs with
  | nil => intro _ acc; simp [normDotsAux]
  | cons x t ih =>
    intro hxs acc
    have hxd : x ≠ "..".data := hxs x (List.mem_cons_self x t)
    have ht : ∀ y ∈ t, y ≠ "..".data :=
      fun y hy => hxs y (List.mem_cons_of_mem x hy)
    rw [normAux_cons_ne acc x t hxd, ih ht (x :: acc)]
    simp

/-- Pushing a dot-free block onto the normalisation stack. -/
theorem normAux_push : ∀ (xs : List Str),
    (∀ x ∈ xs, x ≠ "..".data) →
    ∀ (acc rest : List Str),
      normDotsAux acc (xs ++ rest) = normDotsAux (xs.reverse ++ acc) rest := by
  intro xs
  induction xs with
  | nil => intro _ acc rest; simp
  | cons x t ih =>
    intro hx acc rest
    have hxd : x ≠ "..".data := hx x (List.mem_cons_self x t)
    have ht : ∀ y ∈ t, y ≠ "..".data :=
      fun y hy => hx y (List.mem_cons_of_mem x hy)
    rw [List.cons_append, normAux_cons_ne acc x _ hxd, ih ht (x :: acc) rest]
    simp

/-- A dot-free block followed by as many `..` entries cancels out. -/
theorem normAux_pop : ∀ (xs : List Str),
    (∀ x ∈ xs, x ≠ "..".data) →
    ∀ (acc rest : List Str),
      normDotsAux acc (xs ++ (List.replicate xs.length "..".data ++ rest))
        = normDotsAux acc rest := by
  intro xs
  induction xs with
  | nil => intro _ acc rest; simp
  | cons x t ih =>
    intro hx acc rest
    have hxd : x ≠ "..".data := hx x (List.mem_cons_self x t)
    have ht : ∀ y ∈ t, y ≠ "..".data :=
      fun y hy => hx y (List.mem_cons_of_mem x hy)
    have key : List.replicate (x :: t).length "..".data ++ rest
        = List.replicate t.length "..".data ++ ("..".data :: rest) := by
      rw [List.length_cons, List.replicate_succ', List.append_assoc,
        List.singleton_append]
    rw [List.cons_append, key, normAux_cons_ne acc x _ hxd,
      ih ht (x :: acc) ("..".data :: rest), normAux_cons_dd]
    rfl

/-- The first line of a slash-join is the first component. -/
theorem joinSlash_head (x : Str) (xs : List Str) (hx : x ≠ []) :
    (joinSlash (x :: xs)).head? = x.head? := by
  cases xs with
  | nil => rfl
  | cons y t =>
    cases x with
    | nil => exact absurd rfl hx
    | cons c cs => rfl

/-- C5 counterexample: the export script's manifest builder emits the track
path line as the absolute destination path (it begins with `/`), not as a
path relative to the manifest's directory — its own docstring says
"Generates M3U8 files with absolute paths". -/
theorem c5_counterexample :
    build_m3u8_lines "List1".data
        [("T".data, "/V/USB/ALLDJ_MUSIC/Volumes/T7/a.flac".data)] =
      ["#EXTM3U".data,
       "# List1 - Exported from Rekordbox".data,
       "#EXTINF:0,T".data,
       "/V/USB/ALLDJ_MUSIC/Volumes/T7/a.flac".data] ∧
    "/V/USB/ALLDJ_MUSIC/Volumes/T7/a.flac".data.head? = some '/' := by
  decide

/-- C5 amended: in the copy script's manifest writer the per-track path
line is `os.path.relpath(dest, manifest_dir)`: it is never an absolute path
(its first character is not `/`), and resolving it against the manifest's
own directory yields exactly the track's destination absolute path.  The
export script's `build_m3u8`, by contrast, writes the absolute destination
path (see the counterexample). -/
theorem c5_relative_manifest_paths (artist title : Str)
    (destC startC : List Str)
    (hdest : ∀ x ∈ destC, x ≠ "..".data ∧ x ≠ [] ∧ ('/' : Char) ∉ x)
    (hstart : ∀ x ∈ startC, x ≠ "..".data) :
    (m3u8_track_lines artist title destC startC).getLast?
      = some (relpath destC startC) ∧
    resolveRelAgainst startC (relpathComps destC startC) = destC ∧
    (relpath destC startC).head? ≠ some '/' := by
  refine ⟨rfl, ?_, ?_⟩
  · have htake : startC.take (commonLen startC destC)
        = destC.take (commonLen startC destC) := commonLen_take startC destC
    have hnd_take : ∀ x ∈ startC.take (commonLen startC destC),
        x ≠ "..".data :=
      fun x hx => hstart x (List.take_subset _ _ hx)
    have hnd_drop : ∀ x ∈ startC.drop (commonLen startC destC),
        x ≠ "..".data :=
      fun x hx => hstart x (List.drop_subset _ _ hx)
    have hnd_ddrop : ∀ x ∈ destC.drop (commonLen startC destC),
        x ≠ "..".data :=
      fun x hx => (hdest x (List.drop_subset _ _ hx)).1
    have hlen : startC.length - commonLen startC destC
        = (startC.drop (commonLen startC destC)).length := by
      simp
    have e1 : startC ++ relpathComps destC startC
        = startC.take (commonLen startC destC) ++
            (startC.drop (commonLen startC destC) ++
              (List.replicate (startC.drop (commonLen startC destC)).length
                  "..".data ++
                destC.drop (commonLen startC destC))) := by
      rw [relpathComps, hlen]
      nth_rewrite 1 [← List.take_append_drop (commonLen startC destC) startC]
      rw [List.append_assoc]
    rw [resolveRelAgainst, normDots, e1,
      normAux_push _ hnd_take,
      normAux_pop _ hnd_drop,
      normAux_flush _ hnd_ddrop]
    rw [List.append_nil, List.reverse_reverse, htake, List.take_append_drop]
  · rcases Nat.lt_or_ge (commonLen startC destC) startC.length with hlt | hge
    · have hrep : startC.length - commonLen startC destC
          = (startC.length - commonLen startC destC - 1) + 1 := by omega
      have hcomps : relpathComps destC startC
          = "..".data ::
            (List.replicate (startC.length - commonLen startC destC - 1)
                "..".data ++
              destC.drop (commonLen startC destC)) := by
        rw [relpathComps]
        nth_rewrite 1 [hrep]
        rw [List.replicate_succ, List.cons_append]
      have hne : relpathComps destC startC ≠ [] := by
        rw [hcomps]; exact List.cons_ne_nil _ _
      rw [relpath, if_neg hne, hcomps, joinSlash_head _ _ (by decide)]
      decide
    · have hi : commonLen startC destC = startC.length :=
        Nat.le_antisymm (commonLen_le_left startC destC) hge
      have hcomps : relpathComps destC startC
          = destC.drop (commonLen startC destC) := by
        rw [relpathComps, hi, Nat.sub_self, List.replicate_zero,
          List.nil_append]
      cases hdc : destC.drop (commonLen startC destC) with
      | nil =>
        have hnil : relpathComps destC startC = [] := by rw [hcomps, hdc]
        rw [relpath, if_pos hnil]
        decide
      | cons x xs =>
        have hxmem : x ∈ destC :=
          List.drop_subset _ _ (by rw [hdc]; exact List.mem_cons_self x xs)
        have hxne : x ≠ [] := (hdest x hxmem).2.1
        have hxs : ('/' : Char) ∉ x := (hdest x hxmem).2.2
        have hne : relpathComps destC startC ≠ [] := by
          rw [hcomps, hdc]; exact List.cons_ne_nil _ _
        rw [relpath, if_neg hne, hcomps, hdc, joinSlash_head _ _ hxne]
        cases x with
        | nil => exact absurd rfl hxne
        | cons c cs =>
          have hc : c ≠ '/' := fun hh => hxs (hh ▸ List.mem_cons_self c cs)
          simp [hc]

/-- C5 amended witness: the spec's own example — a manifest under
`dest/manifests/A/B` referencing a track at `dest/music/X/Y/song.ext`. -/
theorem c5_relative_manifest_paths_witness :
    (∀ x ∈ ["dest".data, "music".data, "X".data, "Y".data, "song.ext".data],
      x ≠ "..".data ∧ x ≠ [] ∧ ('/' : Char) ∉ x) ∧
    (∀ x ∈ ["dest".data, "manifests".data, "A".data, "B".data],
      x ≠ "..".data) ∧
    ((m3u8_track_lines "Art".data "Song".data
        ["dest".data, "music".data, "X".data, "Y".data, "song.ext".data]
        ["dest".data, "manifests".data, "A".data, "B".data]).getLast?
      = some (relpath
          ["dest".data, "music".data, "X".data, "Y".data, "song.ext".data]
          ["dest".data, "manifests".data, "A".data, "B".data]) ∧
     resolveRelAgainst ["dest".data, "manifests".data, "A".data, "B".data]
        (relpathComps
          ["dest".data, "music".data, "X".data, "Y".data, "song.ext".data]
          ["dest".data, "manifests".data, "A".data, "B".data])
      = ["dest".data, "music".data, "X".data, "Y".data, "song.ext".data] ∧
     (relpath
        ["dest".data, "music".data, "X".data, "Y".data, "song.ext".data]
        ["dest".data, "manifests".data, "A".data, "B".data]).head?
      ≠ some '/') :=
  ⟨by decide, by decide,
   c5_relative_manifest_paths "Art".data "Song".data
     ["dest".data, "music".data, "X".data, "Y".data, "song.ext".data]
     ["dest".data, "manifests".data, "A".data, "B".data]
     (by decide) (by decide)⟩

/-- `recCompleted` only looks at the entry of its own id. -/
theorem recCompleted_set_self (st : State) (pid : Str) (r : TransferRecord) :
    recCompleted (assocSet st pid r) pid = r.completed := by
  simp [recCompleted, assocSet, assocFind]

/-- Setting one playlist's record does not change another's completion. -/
theorem recCompleted_set_other (st : State) (pid q : Str)
    (r : TransferRecord) (h : pid ≠ q) :
    recCompleted (assocSet st pid r) q = recCompleted st q := by
  simp [recCompleted, assocFind_set_ne _ _ _ _ h]

/-- One track step only ever touches its own playlist's state entry. -/
theorem exportTrackStep_st_other (music_root pid pname : Str) (total : Nat)
    (t : RBTrack) (acc : TrackAcc) (q : Str) (h : q ≠ pid) :
    assocFind (exportTrackStep music_root pid pname total t acc).st q
      = assocFind acc.st q := by
  simp only [exportTrackStep]
  split
  · split
    · exact assocFind_set_ne _ pid q _ (fun hh => h hh.symm)
    · rfl
  · split
    · exact assocFind_set_ne _ pid q _ (fun hh => h hh.symm)
    · rfl

/-- The track loop only ever touches its own playlist's state entry. -/
theorem exportTracks_st_other (music_root pid pname : Str) (total : Nat) :
    ∀ (tr : List RBTrack) (acc : TrackAcc) (q : Str), q ≠ pid →
      assocFind (exportTracks music_root pid pname total tr acc).st q
        = assocFind acc.st q := by
  intro tr
  induction tr with
  | nil => intro acc q h; rfl
  | cons t rest ih =>
    intro acc q h
    rw [exportTracks, ih _ q h,
      exportTrackStep_st_other music_root pid pname total t acc q h]

/-- Over a full-run loop (no limit, no filter), completed entries stay
completed, and every playlist with at least one track row ends
completed. -/
theorem exportLoop_completes (idMap : List (Str × PNode))
    (mr pr : Str) :
    ∀ (l : List (PNode × List RBTrack)) (s : ExpSt),
      (∀ q, recCompleted s.st q = true →
        recCompleted (exportLoop idMap mr pr none [] l s).st q = true) ∧
      (∀ (p : PNode) (tr : List RBTrack), (p, tr) ∈ l → tr ≠ [] →
        recCompleted (exportLoop idMap mr pr none [] l s).st p.id = true) := by
  intro l
  induction l with
  | nil =>
    intro s
    exact ⟨fun q hq => hq, fun p tr hm => absurd hm (List.not_mem_nil _)⟩
  | cons e rest ih =>
    intro s
    obtain ⟨p, tr⟩ := e
    by_cases htr : tr = []
    · constructor
      · intro q hq
        rw [exportLoop]
        simp only [limitHit, Bool.false_eq_true, if_false, htr, if_pos rfl]
        exact (ih s).1 q hq
      · intro p0 tr0 hm hne
        rw [exportLoop]
        simp only [limitHit, Bool.false_eq_true, if_false, htr, if_pos rfl]
        rcases List.mem_cons.mp hm with h1 | h1
        · cases h1
          exact absurd htr hne
        · exact (ih s).2 p0 tr0 h1 hne
    · by_cases hcomp :
        recCompleted ({ s with processed := s.processed + 1 } : ExpSt).st p.id
          = true
      · have hstep : exportLoop idMap mr pr none [] ((p, tr) :: rest) s
            = exportLoop idMap mr pr none [] rest
                ({ s with processed := s.processed + 1 } : ExpSt) := by
          rw [exportLoop]
          simp only [limitHit, Bool.false_eq_true, if_false, htr, if_neg htr,
            hcomp, if_pos rfl, if_true]
        constructor
        · intro q hq
          rw [hstep]
          exact (ih _).1 q hq
        · intro p0 tr0 hm hne
          rw [hstep]
          rcases List.mem_cons.mp hm with h1 | h1
          · have hp0 : p0 = p := by cases h1; rfl
            subst hp0
            exact (ih _).1 p0.id hcomp
          · exact (ih _).2 p0 tr0 h1 hne
      · have hstep : exportLoop idMap mr pr none [] ((p, tr) :: rest) s
            = exportLoop idMap mr pr none [] rest
                ⟨assocSet
                    (exportTracks mr p.id p.name tr.length tr
                      ⟨s.fs, s.st, [], 0, 0⟩).st p.id
                    ⟨true, tr.length,
                      (exportTracks mr p.id p.name tr.length tr
                        ⟨s.fs, s.st, [], 0, 0⟩).copied,
                      some (mkM3u8Path pr (playlist_path idMap p.id).1
                        (playlist_path idMap p.id).2), p.name⟩,
                  (if (exportTracks mr p.id p.name tr.length tr
                        ⟨s.fs, s.st, [], 0, 0⟩).exported ≠ [] then
                    assocSet
                      (exportTracks mr p.id p.name tr.length tr
                        ⟨s.fs, s.st, [], 0, 0⟩).fs
                      (mkM3u8Path pr (playlist_path idMap p.id).1
                        (playlist_path idMap p.id).2)
                      (build_m3u8 (playlist_path idMap p.id).2
                        (exportTracks mr p.id p.name tr.length tr
                          ⟨s.fs, s.st, [], 0, 0⟩).exported)
                  else
                    (exportTracks mr p.id p.name tr.length tr
                      ⟨s.fs, s.st, [], 0, 0⟩).fs),
                  s.ncopy +
                    (exportTracks mr p.id p.name tr.length tr
                      ⟨s.fs, s.st, [], 0, 0⟩).ncopy,
                  s.processed + 1⟩ := by
          rw [exportLoop]
          simp only [limitHit, Bool.false_eq_true, if_false, if_neg htr,
            hcomp, ne_eq, not_true_eq_false, false_and, if_false, if_neg hcomp]
        constructor
        · intro q hq
          rw [hstep]
          have hqp : q ≠ p.id := by
            intro hh
            rw [hh] at hq
            simp only [ExpSt.mk.injEq] at hcomp
            exact hcomp hq
          have hpre : recCompleted
              (assocSet
                (exportTracks mr p.id p.name tr.length tr
                  ⟨s.fs, s.st, [], 0, 0⟩).st p.id
                ⟨true, tr.length,
                  (exportTracks mr p.id p.name tr.length tr
                    ⟨s.fs, s.st, [], 0, 0⟩).copied,
                  some (mkM3u8Path pr (playlist_path idMap p.id).1
                    (playlist_path idMap p.id).2), p.name⟩) q = true := by
            rw [recCompleted_set_other _ _ _ _ (fun hh => hqp hh.symm)]
            have := exportTracks_st_other mr p.id p.name tr.length tr
              ⟨s.fs, s.st, [], 0, 0⟩ q hqp
            simp only [recCompleted, this]
            simpa [recCompleted] using hq
          exact ((ih _).1 q hpre)
        · intro p0 tr0 hm hne
          rw [hstep]
          rcases List.mem_cons.mp hm with h1 | h1
          · have hp0 : p0 = p := by cases h1; rfl
            subst hp0
            have hpre : recCompleted
                (assocSet
                  (exportTracks mr p0.id p0.name tr.length tr
                    ⟨s.fs, s.st, [], 0, 0⟩).st p0.id
                  ⟨true, tr.length,
                    (exportTracks mr p0.id p0.name tr.length tr
                      ⟨s.fs, s.st, [], 0, 0⟩).copied,
                    some (mkM3u8Path pr (playlist_path idMap p0.id).1
                      (playlist_path idMap p0.id).2), p0.name⟩) p0.id
                = true := by
              rw [recCompleted_set_self]
            exact ((ih _).1 p0.id hpre)
          · exact (ih _).2 p0 tr0 h1 hne

/-- When every playlist with tracks is already completed, the loop changes
nothing and performs zero copies. -/
theorem exportLoop_noop (idMap : List (Str × PNode)) (mr pr : Str) :
    ∀ (l : List (PNode × List RBTrack)) (s : ExpSt),
      (∀ (p : PNode) (tr : List RBTrack), (p, tr) ∈ l → tr ≠ [] →
        recCompleted s.st p.id = true) →
      (exportLoop idMap mr pr none [] l s).st = s.st ∧
      (exportLoop idMap mr pr none [] l s).fs = s.fs ∧
      (exportLoop idMap mr pr none [] l s).ncopy = s.ncopy := by
  intro l
  induction l with
  | nil => intro s _; exact ⟨rfl, rfl, rfl⟩
  | cons e rest ih =>
    intro s hall
    obtain ⟨p, tr⟩ := e
    by_cases htr : tr = []
    · rw [exportLoop]
      simp only [limitHit, Bool.false_eq_true, if_false, htr, if_pos rfl]
      exact ih s (fun p0 tr0 hm hne =>
        hall p0 tr0 (List.mem_cons_of_mem _ hm) hne)
    · have hc : recCompleted s.st p.id = true :=
        hall p tr (List.mem_cons_self _ _) htr
      rw [exportLoop]
      simp only [limitHit, Bool.false_eq_true, if_false, if_neg htr, hc,
        if_pos rfl, if_true]
      exact ih _ (fun p0 tr0 hm hne =>
        hall p0 tr0 (List.mem_cons_of_mem _ hm) hne)

/-- C3: a second export run over the same catalog, resuming from the state
and destination left by a completed first run, performs zero
`copy_file_atomic` invocations and leaves the destination file system —
manifests included — byte-identical; and processing any playlist whose
persisted record has `completed = true` is skipped outright: it changes
neither the file system (no copies, no manifest rewrite) nor the state. -/
theorem c3_idempotent_rerun (idMap : List (Str × PNode)) (mr pr : Str)
    (catalog : List (PNode × List RBTrack)) (st0 : State) (fs0 : FST)
    (p : PNode) (tr : List RBTrack) (st : State) (fs : FST) (n proc : Nat)
    (hc : recCompleted st p.id = true) :
    ((exportRun idMap mr pr none [] catalog
        (exportRun idMap mr pr none [] catalog st0 fs0).st
        (exportRun idMap mr pr none [] catalog st0 fs0).fs).st
      = (exportRun idMap mr pr none [] catalog st0 fs0).st ∧
     (exportRun idMap mr pr none [] catalog
        (exportRun idMap mr pr none [] catalog st0 fs0).st
        (exportRun idMap mr pr none [] catalog st0 fs0).fs).fs
      = (exportRun idMap mr pr none [] catalog st0 fs0).fs ∧
     (exportRun idMap mr pr none [] catalog
        (exportRun idMap mr pr none [] catalog st0 fs0).st
        (exportRun idMap mr pr none [] catalog st0 fs0).fs).ncopy = 0) ∧
    ((exportLoop idMap mr pr none [] [(p, tr)] ⟨st, fs, n, proc⟩).st = st ∧
     (exportLoop idMap mr pr none [] [(p, tr)] ⟨st, fs, n, proc⟩).fs = fs ∧
     (exportLoop idMap mr pr none [] [(p, tr)] ⟨st, fs, n, proc⟩).ncopy
       = n) := by
  constructor
  · have hdone : ∀ (p0 : PNode) (tr0 : List RBTrack),
        (p0, tr0) ∈ catalog → tr0 ≠ [] →
        recCompleted (exportRun idMap mr pr none [] catalog st0 fs0).st p0.id
          = true := by
      intro p0 tr0 hm hne
      exact (exportLoop_completes idMap mr pr catalog ⟨st0, fs0, 0, 0⟩).2
        p0 tr0 hm hne
    exact exportLoop_noop idMap mr pr catalog
      ⟨(exportRun idMap mr pr none [] catalog st0 fs0).st,
       (exportRun idMap mr pr none [] catalog st0 fs0).fs, 0, 0⟩ hdone
  · refine exportLoop_noop idMap mr pr [(p, tr)] ⟨st, fs, n, proc⟩ ?_
    intro p0 tr0 hm _
    rcases List.mem_cons.mp hm with h1 | h1
    · have hp0 : p0 = p := by cases h1; rfl
      rw [hp0]
      exact hc
    · exact absurd h1 (List.not_mem_nil _)

/-- C3 witness: one playlist with one track, already completed in the
persisted state. -/
theorem c3_idempotent_rerun_witness :
    recCompleted demoStC demoP.id = true ∧
    (((exportRun demoNodeMap "/U/M".data "/U/P".data none [] demoCatalog
        (exportRun demoNodeMap "/U/M".data "/U/P".data none [] demoCatalog
          [] []).st
        (exportRun demoNodeMap "/U/M".data "/U/P".data none [] demoCatalog
          [] []).fs).st
      = (exportRun demoNodeMap "/U/M".data "/U/P".data none [] demoCatalog
          [] []).st ∧
     (exportRun demoNodeMap "/U/M".data "/U/P".data none [] demoCatalog
        (exportRun demoNodeMap "/U/M".data "/U/P".data none [] demoCatalog
          [] []).st
        (exportRun demoNodeMap "/U/M".data "/U/P".data none [] demoCatalog
          [] []).fs).fs
      = (exportRun demoNodeMap "/U/M".data "/U/P".data none [] demoCatalog
          [] []).fs ∧
     (exportRun demoNodeMap "/U/M".data "/U/P".data none [] demoCatalog
        (exportRun demoNodeMap "/U/M".data "/U/P".data none [] demoCatalog
          [] []).st
        (exportRun demoNodeMap "/U/M".data "/U/P".data none [] demoCatalog
          [] []).fs).ncopy = 0) ∧
    ((exportLoop demoNodeMap "/U/M".data "/U/P".data none []
        [(demoP, [demoTrack])] ⟨demoStC, [], 0, 0⟩).st = demoStC ∧
     (exportLoop demoNodeMap "/U/M".data "/U/P".data none []
        [(demoP, [demoTrack])] ⟨demoStC, [], 0, 0⟩).fs = [] ∧
     (exportLoop demoNodeMap "/U/M".data "/U/P".data none []
        [(demoP, [demoTrack])] ⟨demoStC, [], 0, 0⟩).ncopy = 0)) :=
  ⟨by decide,
   c3_idempotent_rerun demoNodeMap "/U/M".data "/U/P".data demoCatalog [] []
     demoP [demoTrack] demoStC [] 0 0 (by decide)⟩

end Alldj
